import Mathlib

/-!
# lazyiterate: lazy-sequence combinators over Go push iterators

Shallow embedding of `iterfuncs.go`.

A Go iterator `iter.Seq[T]` is a function `func(yield func(T) bool)`.  The
callbacks of the library are closures over mutable variables, so the embedding
threads every piece of mutable state explicitly:

* `Step σ T` is a step callback `func(T) bool` acting on a state `σ`;
* `Seq σ T` is an iterator: it receives the step callback and the state at the
  moment it is called and returns the state at the moment it returns.

A combinator whose closure owns a local variable (`count` in `Take` and `Skip`,
`stack` in `Reverse`, the pending result of a `for ... range` loop in `All`,
`Any`, `Find`, `Count`, `Reduce`) runs its source on the state extended by that
variable.  Go's `int` is embedded as `Int`: the only arithmetic on it is
`count++`, executed only while `count < n`, so no counter ever leaves the
range of a machine integer.
-/

namespace Lazyiterate

/-- Step callback `func(T) bool` with its effect on the state `σ`. -/
abbrev Step (σ T : Type) := T → σ → Bool × σ

/-- Step callback of a paired sequence, `func(K, V) bool`. -/
abbrev Step2 (σ K V : Type) := K → V → σ → Bool × σ

/-- Single-value iterator `iter.Seq[T]`. -/
abbrev Seq (σ T : Type) := Step σ T → σ → σ

/-- Paired iterator `iter.Seq2[K, V]`. -/
abbrev Seq2 (σ K V : Type) := Step2 σ K V → σ → σ

variable {σ τ T R K V A T1 T2 : Type}

/-- The source used by the tests, `slices.Values(s)`:
`for _, v := range s { if !yield(v) { return } }`. -/
def sliceValues : List T → Seq σ T
  | [], _, s => s
  | v :: vs, yield, s =>
    let r := yield v s
    if r.1 then sliceValues vs yield r.2 else r.2

/-- A function without side effects used as a callback on the state `σ`. -/
def pureFn {B : Type} (f : T → B) : T → σ → B × σ := fun v s => (f v, s)

/-- The consumer of the tests: `got = append(got, v); return true`. -/
def collect : Step (List T) T := fun v got => (true, got ++ [v])

/-- The paired consumer of `TestZip`: appends the pair and continues. -/
def collect2 : Step2 (List (K × V)) K V := fun k v got => (true, got ++ [(k, v)])

/-- Elements delivered to a consumer that always continues. -/
def toList (it : Seq (List T) T) : List T := it collect []

/-! ## Terminal operations -/

/-- `All`: the `for v := range it` loop is the call `it(body)`, where the body
records the pending `return false` and stops the iterator. -/
def All (it : Seq (Option Bool × σ) T) (pred : Step σ T) (s : σ) : Bool × σ :=
  let r := it (fun v st =>
    let p := pred v st.2
    if !p.1 then (false, (some false, p.2)) else (true, (st.1, p.2))) (none, s)
  match r.1 with
  | some b => (b, r.2)
  | none => (true, r.2)

/-- `Any`: returns true from inside the loop at the first element satisfying `pred`. -/
def Any (it : Seq (Option Bool × σ) T) (pred : Step σ T) (s : σ) : Bool × σ :=
  let r := it (fun v st =>
    let p := pred v st.2
    if p.1 then (false, (some true, p.2)) else (true, (st.1, p.2))) (none, s)
  match r.1 with
  | some b => (b, r.2)
  | none => (false, r.2)

/-- `Count`: `count++` once per element. -/
def Count (it : Seq (Int × σ) T) (s : σ) : Int × σ :=
  it (fun _ st => (true, (st.1 + 1, st.2))) (0, s)

/-- `Count2`: `count++` once per pair. -/
def Count2 (it : Seq2 (Int × σ) K V) (s : σ) : Int × σ :=
  it (fun _ _ st => (true, (st.1 + 1, st.2))) (0, s)

/-- `Find`: the result is the pair (value, error); a nil error is `none`, the
zero value of `T` is `default`. -/
def Find [Inhabited T] (it : Seq (Option T × σ) T) (pred : Step σ T) (s : σ) :
    (T × Option String) × σ :=
  let r := it (fun v st =>
    let p := pred v st.2
    if p.1 then (false, (some v, p.2)) else (true, (st.1, p.2))) (none, s)
  match r.1 with
  | some v => ((v, none), r.2)
  | none => ((default, some "no element found"), r.2)

/-- `Reduce`: `acc = fn(acc, v)` for each element. -/
def Reduce (it : Seq (A × σ) T) (fn : A → T → σ → A × σ) (init : A) (s : σ) : A × σ :=
  it (fun v st => (true, fn st.1 v st.2)) (init, s)

/-! ## Transformers -/

/-- `Filter`: forwards `v` when `pred(v)`, otherwise continues. -/
def Filter (it : Seq σ T) (pred : Step σ T) : Seq σ T := fun yield s =>
  it (fun v s =>
    let p := pred v s
    if p.1 then yield v p.2 else (true, p.2)) s

/-- `Map`: `yield(fn(v))`. -/
def Map (it : Seq σ T) (fn : T → σ → R × σ) : Seq σ R := fun yield s =>
  it (fun v s =>
    let r := fn v s
    yield r.1 r.2) s

/-- `Map2`: `yield(fn(k, v))`. -/
def Map2 (it : Seq2 σ K V) (fn : K → V → σ → R × σ) : Seq σ R := fun yield s =>
  it (fun k v s =>
    let r := fn k v s
    yield r.1 r.2) s

/-- The second loop of `Reverse`: `for i := len(stack) - 1; i >= 0; i--`.
The argument `j` is `i + 1`, the number of buffered elements still to emit. -/
def Reverse.emit (stack : List T) (yield : Step σ T) :
    (j : Nat) → j ≤ stack.length → σ → σ
  | 0, _, s => s
  | i + 1, h, s =>
    let r := yield (stack.get ⟨i, h⟩) s
    if r.1 then Reverse.emit stack yield i (Nat.le_of_succ_le h) r.2 else r.2

/-- `Reverse`: appends every source element to `stack`, then emits the stack
back to front. -/
def Reverse (it : Seq (List T × σ) T) : Seq σ T := fun yield s =>
  let r := it (fun v st => (true, (st.1 ++ [v], st.2))) ([], s)
  Reverse.emit r.1 yield r.1.length (Nat.le_refl _) r.2

/-- `Skip`: `if count >= n { return yield(v) }; count++; return true`. -/
def Skip (it : Seq (Int × σ) T) (n : Int) : Seq σ T := fun yield s =>
  (it (fun v st =>
    if st.1 ≥ n then
      let r := yield v st.2
      (r.1, (st.1, r.2))
    else (true, (st.1 + 1, st.2))) (0, s)).2

/-- `Take`: `if count < n { count++; return yield(v) }; return false`. -/
def Take (it : Seq (Int × σ) T) (n : Int) : Seq σ T := fun yield s =>
  (it (fun v st =>
    if st.1 < n then
      let r := yield v st.2
      (r.1, (st.1 + 1, r.2))
    else (false, st)) (0, s)).2

/-- `Take2`: the paired twin of `Take`. -/
def Take2 (it : Seq2 (Int × σ) K V) (n : Int) : Seq2 σ K V := fun yield s =>
  (it (fun k v st =>
    if st.1 < n then
      let r := yield k v st.2
      (r.1, (st.1 + 1, r.2))
    else (false, st)) (0, s)).2

/-! ## Zip and the pull cursor

`Zip` turns both sources into pull cursors with `iter.Pull`, which is part of
Go's standard library, not of this repository.  `iter.Pull(seq)` runs `seq` as
a coroutine: every call of `next` resumes the producer until it hands over its
next element, answering each earlier hand-over with "continue"; `stop` answers
the pending hand-over with "stop".  The producer that has handed over `i`
elements and is asked for one more has therefore seen exactly the callback
`pullStep` started at `i`: `i` times "continue", then the element is captured
and the producer is held.  The cursor records how many elements its producer
has handed over (`pos`) and whether the producer has returned (`done`). -/

/-- State of a cursor created by `iter.Pull`. -/
structure Cursor where
  /-- Number of elements the producer has handed over so far. -/
  pos : Nat
  /-- Whether the producer has returned (a `next` reported no element). -/
  done : Bool
deriving DecidableEq

/-- The callback a pulled producer runs against: skip the elements already
handed over, capture the next one and hold the producer there. -/
def pullStep : Step (Nat × Option T) T := fun v st =>
  match st.1 with
  | 0 => (false, (0, some v))
  | k + 1 => (true, (k, st.2))

/-- Model of `next()` of `iter.Pull(it)`: `(v, true)` is `some v`, and
`(zero, false)` is `none`.  A finished cursor stays finished. -/
def Cursor.next (it : Seq (Nat × Option T) T) (c : Cursor) : Option T × Cursor :=
  if c.done then (none, c)
  else
    match (it pullStep (c.pos, none)).2 with
    | some v => (some v, ⟨c.pos + 1, false⟩)
    | none => (none, ⟨c.pos, true⟩)

/-- The `for { ... }` loop of `Zip`.  The loop has no bound of its own, so the
embedding counts rounds: `none` means the rounds allowed were not enough.  The
result holds both cursors as the loop leaves them and the consumer's state. -/
def Zip.loop (it1 : Seq (Nat × Option T1) T1) (it2 : Seq (Nat × Option T2) T2)
    (yield : Step2 σ T1 T2) : Nat → Cursor → Cursor → σ → Option (Cursor × Cursor × σ)
  | 0, _, _, _ => none
  | rounds + 1, c1, c2, s =>
    let r1 := c1.next it1
    let r2 := c2.next it2
    match r1.1, r2.1 with
    | some v1, some v2 =>
      let y := yield v1 v2 s
      if y.1 then Zip.loop it1 it2 yield rounds r1.2 r2.2 y.2
      else some (r1.2, r2.2, y.2)
    | _, _ => some (r1.2, r2.2, s)

/-- `Zip`: both cursors start fresh; the deferred `stop1`, `stop2` release the
producers and hand over nothing.  `rounds` bounds the number of loop rounds. -/
def Zip (rounds : Nat) (it1 : Seq (Nat × Option T1) T1) (it2 : Seq (Nat × Option T2) T2)
    (yield : Step2 σ T1 T2) (s : σ) : Option σ :=
  (Zip.loop it1 it2 yield rounds ⟨0, false⟩ ⟨0, false⟩ s).map (fun r => r.2.2)

/-! ## Observing a source

To state how far a combinator drives its source, the source is wrapped so that
every hand-over of an element to its step callback is recorded in the state
before the callback runs. -/

/-- The source `it`, recording each element it hands to its step callback. -/
def observed (tick : σ → σ) (it : Seq σ T) : Seq σ T := fun yield s =>
  it (fun v s => yield v (tick s)) s

/-- Lifts a state update below the local variable of a combinator. -/
def under {α : Type} (f : σ → σ) : α × σ → α × σ := fun st => (st.1, f st.2)

/-- Counter of elements handed over by the source: first component of the state. -/
def produced : Nat × τ → Nat × τ := fun w => (w.1 + 1, w.2)

/-- A step callback of the consumer's, which does not touch the counter. -/
def downstream (yield : Step τ T) : Step (Nat × τ) T := fun v w =>
  let r := yield v w.2
  (r.1, (w.1, r.2))

/-- A predicate that counts its own evaluations in the state. -/
def tested (p : T → Bool) : Step (Nat × Nat) T := fun v w => (p v, (w.1, w.2 + 1))

/-- The paired twin of `observed`. -/
def observed2 (tick : σ → σ) (it : Seq2 σ K V) : Seq2 σ K V := fun yield s =>
  it (fun k v s => yield k v (tick s)) s

/-- The paired twin of `downstream`. -/
def downstream2 (yield : Step2 τ K V) : Step2 (Nat × τ) K V := fun k v w =>
  let r := yield k v w.2
  (r.1, (w.1, r.2))

/-! ## Further sources and consumers -/

/-- The paired source of the tests, `maps.All(m)`:
`for k, v := range m { if !yield(k, v) { return } }`.  The list holds the
entries of `m` in the order in which the iteration visits them. -/
def mapsAll : List (K × V) → Seq2 σ K V
  | [], _, s => s
  | kv :: rest, yield, s =>
    let r := yield kv.1 kv.2 s
    if r.1 then mapsAll rest yield r.2 else r.2

/-- A two-argument function without side effects used as a callback. -/
def pureFn2 {B C D : Type} (f : B → C → D) : B → C → σ → D × σ := fun a b s => (f a b, s)

/-- Elements delivered by a paired sequence to a consumer that always continues. -/
def toList2 (it : Seq2 (List (K × V)) K V) : List (K × V) := it collect2 []

/-- A consumer that records every invocation and answers "stop" on its `k`-th
invocation (and on any later one): the recorded list is the log of its
invocations. -/
def collectUntil (k : Nat) : Step (List T) T := fun v got =>
  (decide (got.length + 1 < k), got ++ [v])

/-- The paired twin of `collectUntil`. -/
def collect2Until (k : Nat) : Step2 (List (K × V)) K V := fun a b got =>
  (decide (got.length + 1 < k), got ++ [(a, b)])

/-- `Zip` as an iterator value, to be handed to another combinator.  When the
rounds allowed are not enough the state comes back unchanged; every statement
made through `ZipSeq` comes with the proof that `Zip` itself returned. -/
def ZipSeq (rounds : Nat) (it1 : Seq (Nat × Option T1) T1) (it2 : Seq (Nat × Option T2) T2) :
    Seq2 σ T1 T2 := fun yield s =>
  (Zip rounds it1 it2 yield s).getD s

/-- What happens while a sequence is driven: the source hands an element to
its step callback, or the consumer's step callback is invoked. -/
inductive Event where
  | handedOver
  | received
deriving DecidableEq

/-- Appends an event to the log. -/
def noted (e : Event) : List Event → List Event := fun log => log ++ [e]

/-- A consumer that logs its invocation and answers `go` every time. -/
def receiving (go : Bool) : Step (List Event) T := fun _ log => (go, noted Event.received log)

/-! ## Basic facts about the slice source -/

theorem sliceValues_nil (yield : Step σ T) (s : σ) : sliceValues [] yield s = s := rfl

theorem sliceValues_cons (v : T) (vs : List T) (yield : Step σ T) (s : σ) :
    sliceValues (v :: vs) yield s =
      if (yield v s).1 then sliceValues vs yield (yield v s).2 else (yield v s).2 := rfl

/-- Driving a slice source with the collecting consumer appends the slice. -/
theorem sliceValues_collect (xs acc : List T) : sliceValues xs collect acc = acc ++ xs := by
  induction xs generalizing acc with
  | nil => simp [sliceValues_nil]
  | cons v vs ih => simp [sliceValues_cons, collect, ih]

theorem toList_sliceValues (xs : List T) : toList (sliceValues xs) = xs := by
  simp [toList, sliceValues_collect]

/-! ## Take and Skip on a collecting consumer -/

/-- Invariant of the `Take` callback: from `count = c` it forwards the next
`n - c` elements. -/
theorem take_collect_from (xs : List T) (n c : Int) (acc : List T) :
    (sliceValues xs (fun v (st : Int × List T) =>
        if st.1 < n then ((collect v st.2).1, (st.1 + 1, (collect v st.2).2))
        else (false, st)) (c, acc)).2 = acc ++ xs.take (n - c).toNat := by
  simp only [collect]
  induction xs generalizing c acc with
  | nil => simp [sliceValues_nil]
  | cons v vs ih =>
    rw [sliceValues_cons]
    by_cases h : c < n
    · have e : (n - c).toNat = (n - (c + 1)).toNat + 1 := by omega
      simp only [h, if_true]
      rw [ih, e]
      simp
    · have e : (n - c).toNat = 0 := by omega
      simp [h, e]

/-- Invariant of the `Skip` callback: from `count = c` it discards the next
`n - c` elements and forwards the rest. -/
theorem skip_collect_from (xs : List T) (n c : Int) (acc : List T) :
    (sliceValues xs (fun v (st : Int × List T) =>
        if st.1 ≥ n then ((collect v st.2).1, (st.1, (collect v st.2).2))
        else (true, (st.1 + 1, st.2))) (c, acc)).2 = acc ++ xs.drop (n - c).toNat := by
  simp only [collect]
  induction xs generalizing c acc with
  | nil => simp [sliceValues_nil]
  | cons v vs ih =>
    rw [sliceValues_cons]
    by_cases h : c ≥ n
    · have e : (n - c).toNat = 0 := by omega
      simp only [h, if_true]
      rw [ih, e]
      simp
    · have e : (n - c).toNat = (n - (c + 1)).toNat + 1 := by omega
      simp only [h, if_false, Bool.true_eq_false, if_true]
      rw [ih, e]
      simp

/-! ## Filter -/

theorem filter_collect_from (xs : List T) (p : T → Bool) (acc : List T) :
    sliceValues xs (fun v s =>
        if (pureFn p v s).1 then collect v (pureFn p v s).2 else (true, (pureFn p v s).2)) acc
      = acc ++ xs.filter p := by
  simp only [collect, pureFn]
  induction xs generalizing acc with
  | nil => simp [sliceValues_nil]
  | cons v vs ih =>
    rw [sliceValues_cons]
    cases h : p v <;> simp [h, ih]

/-! ## Reverse -/

/-- The buffering pass of `Reverse` never stops the source and appends every
element to the stack, leaving the rest of the state alone. -/
theorem reverse_buffer (xs stack : List T) (s : σ) :
    sliceValues xs (fun v (st : List T × σ) => (true, (st.1 ++ [v], st.2))) (stack, s)
      = (stack ++ xs, s) := by
  induction xs generalizing stack with
  | nil => simp [sliceValues_nil]
  | cons v vs ih => simp [sliceValues_cons, ih]

/-- Emitting the first `j` buffered elements back to front is driving the
reversed prefix as a slice. -/
theorem reverse_emit (stack : List T) (yield : Step σ T) (j : Nat) (h : j ≤ stack.length)
    (s : σ) :
    Reverse.emit stack yield j h s = sliceValues (stack.take j).reverse yield s := by
  induction j generalizing s with
  | zero => simp [Reverse.emit, sliceValues_nil]
  | succ i ih =>
    have hi : i < stack.length := h
    have e : (stack.take (i + 1)).reverse = stack.get ⟨i, hi⟩ :: (stack.take i).reverse := by
      rw [← List.take_concat_get stack i hi]
      simp
    rw [e, sliceValues_cons]
    simp only [Reverse.emit]
    split
    · exact ih _ _
    · rfl

/-- On a slice source, `Reverse` is the slice source of the reversed slice,
for every consumer. -/
theorem reverse_sliceValues (xs : List T) :
    (Reverse (sliceValues xs) : Seq σ T) = sliceValues xs.reverse := by
  funext yield s
  simp [Reverse, reverse_buffer, reverse_emit]

/-! ## Find, All, Any: one loop round -/

theorem find_nil [Inhabited T] (pred : Step σ T) (s : σ) :
    Find (sliceValues []) pred s = ((default, some "no element found"), s) := rfl

/-- One round of the loop of `Find`: a match returns from inside the loop, a
mismatch goes on with the rest of the slice. -/
theorem find_cons [Inhabited T] (x : T) (vs : List T) (p : T → Bool) (s : σ) :
    Find (sliceValues (x :: vs)) (pureFn p) s =
      if p x then ((x, none), s) else Find (sliceValues vs) (pureFn p) s := by
  cases h : p x <;> simp [Find, sliceValues_cons, pureFn, h, sliceValues_nil]

theorem find_slice [Inhabited T] (xs : List T) (p : T → Bool) (s : σ) :
    Find (sliceValues xs) (pureFn p) s =
      (match xs.find? p with
        | some v => (v, none)
        | none => (default, some "no element found"), s) := by
  induction xs with
  | nil => simp [find_nil]
  | cons x vs ih =>
    rw [find_cons, List.find?_cons]
    cases h : p x <;> simp [ih]

/-- One round of `All` on an observed source with a counting predicate. -/
theorem all_observed_cons (x : T) (vs : List T) (p : T → Bool) (a b : Nat) :
    All (observed (under produced) (sliceValues (x :: vs))) (tested p) (a, b) =
      if p x then All (observed (under produced) (sliceValues vs)) (tested p) (a + 1, b + 1)
      else (false, (a + 1, b + 1)) := by
  cases h : p x <;>
    simp [All, observed, sliceValues_cons, under, produced, tested, h]

/-- One round of `Any` on an observed source with a counting predicate. -/
theorem any_observed_cons (x : T) (vs : List T) (p : T → Bool) (a b : Nat) :
    Any (observed (under produced) (sliceValues (x :: vs))) (tested p) (a, b) =
      if p x then (true, (a + 1, b + 1))
      else Any (observed (under produced) (sliceValues vs)) (tested p) (a + 1, b + 1) := by
  cases h : p x <;>
    simp [Any, observed, sliceValues_cons, under, produced, tested, h]

/-- One round of `Find` on an observed source with a counting predicate. -/
theorem find_observed_cons [Inhabited T] (x : T) (vs : List T) (p : T → Bool) (a b : Nat) :
    Find (observed (under produced) (sliceValues (x :: vs))) (tested p) (a, b) =
      if p x then ((x, none), (a + 1, b + 1))
      else Find (observed (under produced) (sliceValues vs)) (tested p) (a + 1, b + 1) := by
  cases h : p x <;>
    simp [Find, observed, sliceValues_cons, under, produced, tested, h]

/-- Position of the first element satisfying `q`, one step into the list. -/
theorem findIdx?_cons_some (q : T → Bool) (x : T) (vs : List T) (i : Nat)
    (h : (x :: vs).findIdx? q = some i) :
    (q x = true ∧ i = 0) ∨ (q x = false ∧ ∃ j, vs.findIdx? q = some j ∧ i = j + 1) := by
  rw [List.findIdx?_cons] at h
  cases hq : q x
  · right
    rw [hq] at h
    simp only [Bool.false_eq_true, if_false, Nat.zero_add] at h
    rw [List.findIdx?_succ] at h
    cases hj : vs.findIdx? q with
    | none => rw [hj] at h; simp at h
    | some j =>
      rw [hj] at h
      simp at h
      exact ⟨rfl, j, rfl, h.symm⟩
  · left
    rw [hq] at h
    simp at h
    exact ⟨rfl, h.symm⟩

theorem all_short_from (xs : List T) (p : T → Bool) (a b i : Nat)
    (h : xs.findIdx? (fun x => !p x) = some i) :
    All (observed (under produced) (sliceValues xs)) (tested p) (a, b)
      = (false, (a + (i + 1), b + (i + 1))) := by
  induction xs generalizing a b i with
  | nil => simp at h
  | cons x vs ih =>
    rw [all_observed_cons]
    rcases findIdx?_cons_some _ x vs i h with ⟨hq, hi⟩ | ⟨hq, j, hj, hi⟩
    · have hp : p x = false := by simpa using hq
      simp [hp, hi]
    · have hp : p x = true := by simpa using hq
      simp only [hp, if_true]
      rw [ih _ _ _ hj, hi]
      simp only [Prod.mk.injEq, true_and]
      constructor <;> omega

theorem any_short_from (xs : List T) (p : T → Bool) (a b i : Nat)
    (h : xs.findIdx? p = some i) :
    Any (observed (under produced) (sliceValues xs)) (tested p) (a, b)
      = (true, (a + (i + 1), b + (i + 1))) := by
  induction xs generalizing a b i with
  | nil => simp at h
  | cons x vs ih =>
    rw [any_observed_cons]
    rcases findIdx?_cons_some _ x vs i h with ⟨hp, hi⟩ | ⟨hp, j, hj, hi⟩
    · simp [hp, hi]
    · simp only [hp, Bool.false_eq_true, if_false]
      rw [ih _ _ _ hj, hi]
      simp only [Prod.mk.injEq, true_and]
      constructor <;> omega

theorem find_short_from [Inhabited T] (xs : List T) (p : T → Bool) (a b i : Nat)
    (h : xs.findIdx? p = some i) :
    ∃ v, xs[i]? = some v ∧
      Find (observed (under produced) (sliceValues xs)) (tested p) (a, b)
        = ((v, none), (a + (i + 1), b + (i + 1))) := by
  induction xs generalizing a b i with
  | nil => simp at h
  | cons x vs ih =>
    rw [find_observed_cons]
    rcases findIdx?_cons_some _ x vs i h with ⟨hp, hi⟩ | ⟨hp, j, hj, hi⟩
    · exact ⟨x, by simp [hi], by simp [hp, hi]⟩
    · obtain ⟨v, hv, hf⟩ := ih (a + 1) (b + 1) j hj
      refine ⟨v, by simp [hi, hv], ?_⟩
      simp only [hp, Bool.false_eq_true, if_false]
      rw [hf, hi]
      simp only [Prod.mk.injEq, true_and]
      constructor <;> omega

/-! ## How far Take drives its source -/

/-- Invariant of the `Take` callback on an observed source: from `count = c`
the source hands over at most `n - c` further elements plus the one on which
the callback answers "stop". -/
theorem take_observed_from (xs : List T) (n c : Int) (yield : Step τ T) (k : Nat) (t : τ) :
    (sliceValues xs (fun v (st : Int × (Nat × τ)) =>
        if (under produced st).1 < n then
          ((downstream yield v (under produced st).2).1,
            ((under produced st).1 + 1, (downstream yield v (under produced st).2).2))
        else (false, under produced st)) (c, (k, t))).2.1 ≤ k + (n - c).toNat + 1 := by
  simp only [under, produced, downstream]
  induction xs generalizing c k t with
  | nil =>
    simp only [sliceValues_nil]
    omega
  | cons v vs ih =>
    rw [sliceValues_cons]
    by_cases h : c < n
    · simp only [h, if_true]
      split
      · have := ih (c + 1) (k + 1) (yield v t).2
        omega
      · simp only
        omega
    · simp only [h, if_false, Bool.false_eq_true]
      omega

/-- With `n <= 0` the `Take` callback answers "stop" at once: the source hands
over at most one element and the consumer's state is untouched. -/
theorem take_observed_nonpos (xs : List T) (n : Int) (hn : n ≤ 0) (yield : Step τ T) (t : τ) :
    (sliceValues xs (fun v (st : Int × (Nat × τ)) =>
        if (under produced st).1 < n then
          ((downstream yield v (under produced st).2).1,
            ((under produced st).1 + 1, (downstream yield v (under produced st).2).2))
        else (false, under produced st)) (0, (0, t))).2 = (min 1 xs.length, t) := by
  simp only [under, produced, downstream]
  cases xs with
  | nil => simp [sliceValues_nil]
  | cons v vs =>
    have h : ¬ (0 : Int) < n := by omega
    rw [sliceValues_cons]
    simp [h]

/-! ## The pull cursor and the Zip loop on slice sources -/

/-- A pulled slice producer that has handed over `i` elements hands over the
element at index `i` next, when there is one. -/
theorem pull_slice (xs : List T) (i : Nat) (r : Option T) :
    (sliceValues xs pullStep (i, r)).2 = (xs[i]?).or r := by
  induction xs generalizing i with
  | nil => simp [sliceValues_nil]
  | cons x vs ih =>
    rw [sliceValues_cons]
    cases i with
    | zero => simp [pullStep]
    | succ k => simp [pullStep, ih]

theorem cursor_next_slice_some (xs : List T) (i : Nat) (v : T) (h : xs[i]? = some v) :
    Cursor.next (sliceValues xs) ⟨i, false⟩ = (some v, ⟨i + 1, false⟩) := by
  simp [Cursor.next, pull_slice, h]

theorem cursor_next_slice_none (xs : List T) (i : Nat) (h : xs[i]? = none) :
    Cursor.next (sliceValues xs) ⟨i, false⟩ = (none, ⟨i, true⟩) := by
  simp [Cursor.next, pull_slice, h]

/-- A round in which a cursor reports no element is the last one, whatever the
sources are; both cursors have been asked in it. -/
theorem zip_loop_exhausted (it1 : Seq (Nat × Option T1) T1) (it2 : Seq (Nat × Option T2) T2)
    (yield : Step2 σ T1 T2) (rounds : Nat) (c1 c2 : Cursor) (s : σ)
    (h : (c1.next it1).1 = none ∨ (c2.next it2).1 = none) :
    Zip.loop it1 it2 yield (rounds + 1) c1 c2 s = some ((c1.next it1).2, (c2.next it2).2, s) := by
  simp only [Zip.loop]
  rcases h with h | h
  · rw [h]
  · rw [h]
    cases (c1.next it1).1 <;> rfl

/-- The Zip loop on two slice sources, from both cursors at position `i`:
given enough rounds it delivers the pairs from position `i` on and leaves the
cursors one element past the last pair where the source has one. -/
theorem zip_loop_slices (as : List T1) (bs : List T2) (rounds i : Nat) (acc : List (T1 × T2))
    (hi : i ≤ min as.length bs.length) (hr : min as.length bs.length - i < rounds) :
    Zip.loop (sliceValues as) (sliceValues bs) collect2 rounds ⟨i, false⟩ ⟨i, false⟩ acc
      = some (⟨min as.length (bs.length + 1), decide (as.length ≤ bs.length)⟩,
              ⟨min bs.length (as.length + 1), decide (bs.length ≤ as.length)⟩,
              acc ++ (as.drop i).zip (bs.drop i)) := by
  induction rounds generalizing i acc with
  | zero => omega
  | succ rounds ih =>
    by_cases ha : i < as.length
    · by_cases hb : i < bs.length
      · have ea : as[i]? = some as[i] := List.getElem?_eq_getElem ha
        have eb : bs[i]? = some bs[i] := List.getElem?_eq_getElem hb
        simp only [Zip.loop, cursor_next_slice_some as i _ ea, cursor_next_slice_some bs i _ eb,
          collect2, if_true]
        rw [ih (i + 1) _ (by omega) (by omega)]
        rw [List.drop_eq_getElem_cons ha, List.drop_eq_getElem_cons hb, List.zip_cons_cons,
          List.append_assoc, List.singleton_append]
      · have eb : bs[i]? = none := List.getElem?_eq_none (by omega)
        have ea : as[i]? = some as[i] := List.getElem?_eq_getElem ha
        rw [zip_loop_exhausted _ _ _ _ _ _ _ (Or.inr (by rw [cursor_next_slice_none bs i eb]))]
        rw [cursor_next_slice_none bs i eb, cursor_next_slice_some as i _ ea]
        have hl : bs.length = i := by omega
        have e1 : min as.length (bs.length + 1) = i + 1 := by omega
        have e2 : min bs.length (as.length + 1) = i := by omega
        have d1 : decide (as.length ≤ bs.length) = false := by
          simp only [decide_eq_false_iff_not]; omega
        have d2 : decide (bs.length ≤ as.length) = true := by
          simp only [decide_eq_true_eq]; omega
        rw [e1, e2, d1, d2, List.drop_of_length_le (Nat.le_of_eq hl)]
        simp
    · have ea : as[i]? = none := List.getElem?_eq_none (by omega)
      rw [zip_loop_exhausted _ _ _ _ _ _ _ (Or.inl (by rw [cursor_next_slice_none as i ea]))]
      rw [cursor_next_slice_none as i ea]
      have hl : as.length = i := by omega
      have e1 : min as.length (bs.length + 1) = i := by omega
      have d1 : decide (as.length ≤ bs.length) = true := by
        simp only [decide_eq_true_eq]; omega
      rw [e1, d1, List.drop_of_length_le (Nat.le_of_eq hl)]
      by_cases hb : i < bs.length
      · have eb : bs[i]? = some bs[i] := List.getElem?_eq_getElem hb
        have e2 : min bs.length (as.length + 1) = i + 1 := by omega
        have d2 : decide (bs.length ≤ as.length) = false := by
          simp only [decide_eq_false_iff_not]; omega
        rw [cursor_next_slice_some bs i _ eb, e2, d2]
        simp
      · have eb : bs[i]? = none := List.getElem?_eq_none (by omega)
        have e2 : min bs.length (as.length + 1) = i := by omega
        have d2 : decide (bs.length ≤ as.length) = true := by
          simp only [decide_eq_true_eq]; omega
        rw [cursor_next_slice_none bs i eb, e2, d2]
        simp

/-! ## The paired source -/

theorem mapsAll_nil (yield : Step2 σ K V) (s : σ) : mapsAll [] yield s = s := rfl

theorem mapsAll_cons (kv : K × V) (rest : List (K × V)) (yield : Step2 σ K V) (s : σ) :
    mapsAll (kv :: rest) yield s =
      if (yield kv.1 kv.2 s).1 then mapsAll rest yield (yield kv.1 kv.2 s).2
      else (yield kv.1 kv.2 s).2 := rfl

theorem mapsAll_collect2 (ps acc : List (K × V)) : mapsAll ps collect2 acc = acc ++ ps := by
  induction ps generalizing acc with
  | nil => simp [mapsAll_nil]
  | cons kv rest ih => simp [mapsAll_cons, collect2, ih]

theorem toList2_mapsAll (ps : List (K × V)) : toList2 (mapsAll ps) = ps := by
  simp [toList2, mapsAll_collect2]

/-! ## Transformers on a slice source, for every consumer

Each transformer applied to a slice source behaves, towards every consumer
and from every state, as the slice source of the list it delivers. -/

theorem filter_sliceValues (xs : List T) (p : T → Bool) :
    (Filter (sliceValues xs) (pureFn p) : Seq σ T) = sliceValues (xs.filter p) := by
  funext yield s
  simp only [Filter, pureFn]
  induction xs generalizing s with
  | nil => simp [sliceValues_nil]
  | cons x vs ih =>
    rw [sliceValues_cons]
    cases h : p x
    · simp [h, ih]
    · simp only [h, if_true, List.filter_cons_of_pos, sliceValues_cons]
      split
      · exact ih _
      · rfl

theorem map_sliceValues (xs : List T) (f : T → R) :
    (Map (sliceValues xs) (pureFn f) : Seq σ R) = sliceValues (xs.map f) := by
  funext yield s
  simp only [Map, pureFn]
  induction xs generalizing s with
  | nil => simp [sliceValues_nil]
  | cons x vs ih =>
    rw [sliceValues_cons, List.map_cons, sliceValues_cons]
    split
    · exact ih _
    · rfl

theorem map2_mapsAll (ps : List (K × V)) (f : K → V → R) :
    (Map2 (mapsAll ps) (pureFn2 f) : Seq σ R) = sliceValues (ps.map (fun kv => f kv.1 kv.2)) := by
  funext yield s
  simp only [Map2, pureFn2]
  induction ps generalizing s with
  | nil => simp [sliceValues_nil, mapsAll_nil]
  | cons kv rest ih =>
    rw [mapsAll_cons, List.map_cons, sliceValues_cons]
    split
    · exact ih _
    · rfl

/-- The `Take` callback from `count = c`, towards any consumer. -/
theorem take_run_from (xs : List T) (n c : Int) (yield : Step σ T) (s : σ) :
    (sliceValues xs (fun v (st : Int × σ) =>
        if st.1 < n then ((yield v st.2).1, (st.1 + 1, (yield v st.2).2))
        else (false, st)) (c, s)).2 = sliceValues (xs.take (n - c).toNat) yield s := by
  induction xs generalizing c s with
  | nil => simp [sliceValues_nil]
  | cons v vs ih =>
    rw [sliceValues_cons]
    by_cases h : c < n
    · have e : (n - c).toNat = (n - (c + 1)).toNat + 1 := by omega
      simp only [h, if_true]
      rw [e, List.take_succ_cons, sliceValues_cons]
      split
      · exact ih _ _
      · rfl
    · have e : (n - c).toNat = 0 := by omega
      simp [h, e, sliceValues_nil]

theorem take_sliceValues (xs : List T) (n : Int) :
    (Take (sliceValues xs) n : Seq σ T) = sliceValues (xs.take n.toNat) := by
  funext yield s
  have := take_run_from xs n 0 yield s
  simpa [Take] using this

/-- The `Skip` callback from `count = c`, towards any consumer. -/
theorem skip_run_from (xs : List T) (n c : Int) (yield : Step σ T) (s : σ) :
    (sliceValues xs (fun v (st : Int × σ) =>
        if st.1 ≥ n then ((yield v st.2).1, (st.1, (yield v st.2).2))
        else (true, (st.1 + 1, st.2))) (c, s)).2 = sliceValues (xs.drop (n - c).toNat) yield s := by
  induction xs generalizing c s with
  | nil => simp [sliceValues_nil]
  | cons v vs ih =>
    rw [sliceValues_cons]
    by_cases h : c ≥ n
    · have e : (n - c).toNat = 0 := by omega
      simp only [h, if_true]
      rw [e, List.drop_zero, sliceValues_cons]
      split
      · have := ih c (yield v s).2
        rw [e, List.drop_zero] at this
        exact this
      · rfl
    · have e : (n - c).toNat = (n - (c + 1)).toNat + 1 := by omega
      simp only [h, if_false, if_true]
      rw [e, List.drop_succ_cons]
      exact ih _ _

theorem skip_sliceValues (xs : List T) (n : Int) :
    (Skip (sliceValues xs) n : Seq σ T) = sliceValues (xs.drop n.toNat) := by
  funext yield s
  have := skip_run_from xs n 0 yield s
  simpa [Skip] using this

/-! ## Terminal operations on a slice source -/

theorem all_cons (x : T) (vs : List T) (p : T → Bool) (s : σ) :
    All (sliceValues (x :: vs)) (pureFn p) s =
      if p x then All (sliceValues vs) (pureFn p) s else (false, s) := by
  cases h : p x <;> simp [All, sliceValues_cons, pureFn, h]

theorem all_slice (xs : List T) (p : T → Bool) (s : σ) :
    All (sliceValues xs) (pureFn p) s = (xs.all p, s) := by
  induction xs with
  | nil => simp [All, sliceValues_nil]
  | cons x vs ih =>
    rw [all_cons, ih]
    cases h : p x <;> simp [h]

theorem any_cons (x : T) (vs : List T) (p : T → Bool) (s : σ) :
    Any (sliceValues (x :: vs)) (pureFn p) s =
      if p x then (true, s) else Any (sliceValues vs) (pureFn p) s := by
  cases h : p x <;> simp [Any, sliceValues_cons, pureFn, h]

theorem any_slice (xs : List T) (p : T → Bool) (s : σ) :
    Any (sliceValues xs) (pureFn p) s = (xs.any p, s) := by
  induction xs with
  | nil => simp [Any, sliceValues_nil]
  | cons x vs ih =>
    rw [any_cons, ih]
    cases h : p x <;> simp [h]

theorem reduce_slice (xs : List T) (f : A → T → A) (init : A) (s : σ) :
    Reduce (sliceValues xs) (pureFn2 f) init s = (xs.foldl f init, s) := by
  simp only [Reduce, pureFn2]
  induction xs generalizing init with
  | nil => simp [sliceValues_nil]
  | cons x vs ih => simp [sliceValues_cons, ih]

theorem count_slice (xs : List T) (s : σ) :
    Count (sliceValues xs) s = ((xs.length : Int), s) := by
  have h : ∀ (c : Int), sliceValues xs (fun _ (st : Int × σ) => (true, (st.1 + 1, st.2))) (c, s)
      = (c + (xs.length : Int), s) := by
    induction xs with
    | nil => intro c; simp [sliceValues_nil]
    | cons x vs ih =>
      intro c
      simp only [sliceValues_cons, if_true, ih, List.length_cons, Nat.cast_succ]
      rw [Prod.mk.injEq]
      exact ⟨by omega, rfl⟩
  simpa [Count] using h 0

theorem count2_mapsAll (ps : List (K × V)) (s : σ) :
    Count2 (mapsAll ps) s = ((ps.length : Int), s) := by
  have h : ∀ (c : Int), mapsAll ps (fun _ _ (st : Int × σ) => (true, (st.1 + 1, st.2))) (c, s)
      = (c + (ps.length : Int), s) := by
    induction ps with
    | nil => intro c; simp [mapsAll_nil]
    | cons kv rest ih =>
      intro c
      simp only [mapsAll_cons, if_true, ih, List.length_cons, Nat.cast_succ]
      rw [Prod.mk.injEq]
      exact ⟨by omega, rfl⟩
  simpa [Count2] using h 0

/-! ## Zip on slice sources, for every consumer -/

/-- The consumer's state after the Zip loop on two slice sources, from both
cursors at position `i`: the consumer has been driven as by the paired slice
source of the remaining pairs. -/
theorem zip_loop_state (as : List T1) (bs : List T2) (yield : Step2 σ T1 T2)
    (rounds i : Nat) (s : σ)
    (hi : i ≤ min as.length bs.length) (hr : min as.length bs.length - i < rounds) :
    (Zip.loop (sliceValues as) (sliceValues bs) yield rounds ⟨i, false⟩ ⟨i, false⟩ s).map
        (fun r => r.2.2)
      = some (mapsAll ((as.drop i).zip (bs.drop i)) yield s) := by
  induction rounds generalizing i s with
  | zero => omega
  | succ rounds ih =>
    by_cases ha : i < as.length
    · by_cases hb : i < bs.length
      · have ea : as[i]? = some as[i] := List.getElem?_eq_getElem ha
        have eb : bs[i]? = some bs[i] := List.getElem?_eq_getElem hb
        simp only [Zip.loop, cursor_next_slice_some as i _ ea, cursor_next_slice_some bs i _ eb]
        rw [List.drop_eq_getElem_cons ha, List.drop_eq_getElem_cons hb, List.zip_cons_cons,
          mapsAll_cons]
        split
        · exact ih (i + 1) _ (by omega) (by omega)
        · rfl
      · have eb : bs[i]? = none := List.getElem?_eq_none (by omega)
        rw [zip_loop_exhausted _ _ _ _ _ _ _ (Or.inr (by rw [cursor_next_slice_none bs i eb]))]
        rw [List.drop_of_length_le (l := bs) (by omega)]
        simp [mapsAll_nil]
    · have ea : as[i]? = none := List.getElem?_eq_none (by omega)
      rw [zip_loop_exhausted _ _ _ _ _ _ _ (Or.inl (by rw [cursor_next_slice_none as i ea]))]
      rw [List.drop_of_length_le (l := as) (by omega)]
      simp [mapsAll_nil]

theorem zip_sliceValues (as : List T1) (bs : List T2) (rounds : Nat)
    (h : min as.length bs.length < rounds) (yield : Step2 σ T1 T2) (s : σ) :
    Zip rounds (sliceValues as) (sliceValues bs) yield s = some (mapsAll (as.zip bs) yield s) := by
  have := zip_loop_state as bs yield rounds 0 s (Nat.zero_le _) (by omega)
  simpa [Zip] using this

theorem zipSeq_sliceValues (as : List T1) (bs : List T2) (rounds : Nat)
    (h : min as.length bs.length < rounds) :
    (ZipSeq rounds (sliceValues as) (sliceValues bs) : Seq2 σ T1 T2) = mapsAll (as.zip bs) := by
  funext yield s
  simp [ZipSeq, zip_sliceValues as bs rounds h]

/-- The Zip loop against a consumer that stops at its `k`-th invocation, with
both sources at least `k` long: the loop ends with both cursors at `k`. -/
theorem zip_loop_stopped (as : List T1) (bs : List T2) (k rounds i : Nat)
    (hik : i < k) (hk : k ≤ min as.length bs.length) (hr : k - i ≤ rounds) :
    Zip.loop (sliceValues as) (sliceValues bs) (collect2Until k) rounds
        ⟨i, false⟩ ⟨i, false⟩ ((as.zip bs).take i)
      = some (⟨k, false⟩, ⟨k, false⟩, (as.zip bs).take k) := by
  induction rounds generalizing i with
  | zero => omega
  | succ rounds ih =>
    have ha : i < as.length := by omega
    have hb : i < bs.length := by omega
    have hz : i < (as.zip bs).length := by rw [List.length_zip]; omega
    have ea : as[i]? = some as[i] := List.getElem?_eq_getElem ha
    have eb : bs[i]? = some bs[i] := List.getElem?_eq_getElem hb
    have el : ((as.zip bs).take i).length = i := by
      rw [List.length_take]; omega
    have et : (as.zip bs).take i ++ [(as[i], bs[i])] = (as.zip bs).take (i + 1) := by
      have h1 := List.take_concat_get' (as.zip bs) i hz
      rw [List.getElem_zip] at h1
      exact h1
    simp only [Zip.loop, cursor_next_slice_some as i _ ea, cursor_next_slice_some bs i _ eb,
      collect2Until, el, et]
    by_cases hlt : i + 1 < k
    · simp only [hlt, decide_True, if_true]
      exact ih (i + 1) hlt (by omega)
    · have e : i + 1 = k := by omega
      simp [hlt, e]

/-! ## Consumers that stop -/

theorem sliceValues_collectUntil (xs : List T) (k : Nat) (acc : List T) :
    sliceValues xs (collectUntil k) acc = acc ++ xs.take (max 1 (k - acc.length)) := by
  induction xs generalizing acc with
  | nil => simp [sliceValues_nil]
  | cons x vs ih =>
    rw [sliceValues_cons]
    simp only [collectUntil]
    by_cases h : acc.length + 1 < k
    · have e : max 1 (k - acc.length) = max 1 (k - (acc.length + 1)) + 1 := by omega
      simp only [h, decide_True, if_true]
      rw [ih, e, List.length_append, List.length_singleton, List.take_succ_cons,
        List.append_assoc, List.singleton_append]
    · have e : max 1 (k - acc.length) = 1 := by omega
      simp [h, e]

theorem mapsAll_collect2Until (ps : List (K × V)) (k : Nat) (acc : List (K × V)) :
    mapsAll ps (collect2Until k) acc = acc ++ ps.take (max 1 (k - acc.length)) := by
  induction ps generalizing acc with
  | nil => simp [mapsAll_nil]
  | cons kv rest ih =>
    rw [mapsAll_cons]
    simp only [collect2Until]
    by_cases h : acc.length + 1 < k
    · have e : max 1 (k - acc.length) = max 1 (k - (acc.length + 1)) + 1 := by omega
      simp only [h, decide_True, if_true]
      rw [ih, e, List.length_append, List.length_singleton, List.take_succ_cons,
        List.append_assoc, List.singleton_append]
    · have e : max 1 (k - acc.length) = 1 := by omega
      simp [h, e]

theorem sliceValues_receiving (xs : List T) (go : Bool) (log : List Event) :
    sliceValues xs (receiving go) log
      = log ++ List.replicate (if go then xs.length else min 1 xs.length) Event.received := by
  induction xs generalizing log with
  | nil => cases go <;> simp [sliceValues_nil]
  | cons x vs ih =>
    rw [sliceValues_cons]
    cases go
    · simp [receiving, noted]
    · simp only [receiving, noted, if_true, List.length_cons]
      have := ih (log ++ [Event.received])
      simp only [receiving, noted, if_true] at this
      rw [this, List.replicate_succ, List.append_assoc, List.singleton_append]

/-! ## Reverse on an observed source -/

/-- The buffering pass of `Reverse` on an observed slice source: every element
is handed over and logged; the consumer is not involved. -/
theorem reverse_buffer_observed (xs stack : List T) (log : List Event) :
    sliceValues xs (fun v (st : List T × List Event) =>
        (true, ((under (noted Event.handedOver) st).1 ++ [v],
          (under (noted Event.handedOver) st).2))) (stack, log)
      = (stack ++ xs, log ++ List.replicate xs.length Event.handedOver) := by
  simp only [under, noted]
  induction xs generalizing stack log with
  | nil => simp [sliceValues_nil]
  | cons v vs ih =>
    simp only [sliceValues_cons, if_true, ih, List.length_cons, List.replicate_succ]
    simp

/-! ## Exact consumption of Take and Take2 -/

theorem take_observed_exact (xs : List T) (n c : Int) (k : Nat) (acc : List T) :
    (sliceValues xs (fun v (st : Int × (Nat × List T)) =>
        if (under produced st).1 < n then
          ((downstream collect v (under produced st).2).1,
            ((under produced st).1 + 1, (downstream collect v (under produced st).2).2))
        else (false, under produced st)) (c, (k, acc))).2.1
      = k + min xs.length ((n - c).toNat + 1) := by
  simp only [under, produced, downstream, collect]
  induction xs generalizing c k acc with
  | nil => simp [sliceValues_nil]
  | cons v vs ih =>
    rw [sliceValues_cons]
    by_cases h : c < n
    · simp only [h, if_true, List.length_cons]
      rw [ih]
      omega
    · simp only [h, if_false, Bool.false_eq_true, List.length_cons]
      omega

theorem take2_observed_exact (ps : List (K × V)) (n c : Int) (k : Nat) (acc : List (K × V)) :
    (mapsAll ps (fun a b (st : Int × (Nat × List (K × V))) =>
        if (under produced st).1 < n then
          ((downstream2 collect2 a b (under produced st).2).1,
            ((under produced st).1 + 1, (downstream2 collect2 a b (under produced st).2).2))
        else (false, under produced st)) (c, (k, acc))).2.1
      = k + min ps.length ((n - c).toNat + 1) := by
  simp only [under, produced, downstream2, collect2]
  induction ps generalizing c k acc with
  | nil => simp [mapsAll_nil]
  | cons kv rest ih =>
    rw [mapsAll_cons]
    by_cases h : c < n
    · simp only [h, if_true, List.length_cons]
      rw [ih]
      omega
    · simp only [h, if_false, Bool.false_eq_true, List.length_cons]
      omega

/-! ## Claims -/

/-- C1: driving `Take(source, n)` over a slice source with a consumer that
always continues delivers exactly the first `min(max(n,0), len(xs))` elements
in source order; `n <= 0` delivers nothing and `n >= len(xs)` delivers all. -/
theorem take_delivers_head (xs : List T) (n : Int) :
    toList (Take (sliceValues xs) n) = xs.take (min (max n 0).toNat xs.length) ∧
    (n ≤ 0 → toList (Take (sliceValues xs) n) = []) ∧
    ((xs.length : Int) ≤ n → toList (Take (sliceValues xs) n) = xs) := by
  have key : toList (Take (sliceValues xs) n) = xs.take n.toNat := by
    have := take_collect_from xs n 0 []
    simpa [toList, Take] using this
  refine ⟨?_, ?_, ?_⟩
  · rw [key]
    by_cases hle : n.toNat ≤ xs.length
    · congr 1
      omega
    · rw [List.take_of_length_le (by omega), List.take_of_length_le (by omega)]
  · intro h
    have e : n.toNat = 0 := by omega
    simp [key, e]
  · intro h
    rw [key]
    exact List.take_of_length_le (by omega)

/-- C1 at the input of `TestTake`, and at a negative and an oversized `n`. -/
theorem take_delivers_head_witness :
    toList (Take (sliceValues [1, 2, 3, 4]) 2) = [1, 2] ∧
    toList (Take (sliceValues [1, 2, 3, 4]) (-3)) = [] ∧
    toList (Take (sliceValues [1, 2, 3, 4]) 9) = [1, 2, 3, 4] :=
  ⟨(take_delivers_head [1, 2, 3, 4] 2).1,
   (take_delivers_head [1, 2, 3, 4] (-3)).2.1 (by decide),
   (take_delivers_head [1, 2, 3, 4] 9).2.2 (by decide)⟩

/-- C2 as stated fails: over `[1, 2, 3, 4]`, `Take(source, 2)` makes the source
hand over three elements, and `Take(source, 0)` makes it hand over one. -/
theorem take_drives_source_one_past :
    (Take (observed (under produced) (sliceValues [1, 2, 3, 4])) 2
        (downstream collect) (0, [])) = (3, [1, 2]) ∧
    ¬ (Take (observed (under produced) (sliceValues [1, 2, 3, 4])) 2
        (downstream collect) (0, [])).1 ≤ (max (2 : Int) 0).toNat ∧
    (Take (observed (under produced) (sliceValues [1, 2, 3, 4])) 0
        (downstream collect) (0, [])) = (1, []) := by
  decide

/-- C2 amended: for every integer `n`, every slice source and every consumer,
driving `Take(source, n)` to completion makes the source hand over at most
`max(n,0) + 1` elements; for `n <= 0` it hands over at most one element (one
when it is not empty) and the consumer is never reached. -/
theorem take_drives_source_at_most_one_past (xs : List T) (n : Int) (yield : Step τ T) (t : τ) :
    (Take (observed (under produced) (sliceValues xs)) n (downstream yield) (0, t)).1
      ≤ (max n 0).toNat + 1 ∧
    (n ≤ 0 →
      Take (observed (under produced) (sliceValues xs)) n (downstream yield) (0, t)
        = (min 1 xs.length, t)) := by
  refine ⟨?_, ?_⟩
  · have h := take_observed_from xs n 0 yield 0 t
    have e : (n - 0).toNat = (max n 0).toNat := by omega
    rw [e, Nat.zero_add] at h
    exact h
  · intro hn
    exact take_observed_nonpos xs n hn yield t

/-- C2 amended, at `n = 0` over `[1, 2, 3, 4]` with the collecting consumer. -/
theorem take_drives_source_at_most_one_past_witness :
    Take (observed (under produced) (sliceValues [1, 2, 3, 4])) 0 (downstream collect) (0, [])
      = (min 1 [1, 2, 3, 4].length, []) :=
  (take_drives_source_at_most_one_past [1, 2, 3, 4] 0 collect []).2 (by decide)

/-- C3: driving `Skip(source, n)` over a slice source with a consumer that
always continues delivers the slice without its first `max(n,0)` elements,
unchanged and in order: empty when `len(xs) <= n`, all of `xs` when `n <= 0`. -/
theorem skip_delivers_suffix (xs : List T) (n : Int) :
    toList (Skip (sliceValues xs) n) = xs.drop (max n 0).toNat ∧
    ((xs.length : Int) ≤ n → toList (Skip (sliceValues xs) n) = []) ∧
    (n ≤ 0 → toList (Skip (sliceValues xs) n) = xs) := by
  have key : toList (Skip (sliceValues xs) n) = xs.drop n.toNat := by
    have := skip_collect_from xs n 0 []
    simpa [toList, Skip] using this
  refine ⟨?_, ?_, ?_⟩
  · rw [key]
    congr 1
    omega
  · intro h
    rw [key]
    exact List.drop_of_length_le (by omega)
  · intro h
    have e : n.toNat = 0 := by omega
    simp [key, e]

/-- C3 at the input of `TestSkip`, and at an oversized and a negative `n`. -/
theorem skip_delivers_suffix_witness :
    toList (Skip (sliceValues [1, 2, 3, 4]) 2) = [3, 4] ∧
    toList (Skip (sliceValues [1, 2, 3, 4]) 4) = [] ∧
    toList (Skip (sliceValues [1, 2, 3, 4]) (-3)) = [1, 2, 3, 4] :=
  ⟨(skip_delivers_suffix [1, 2, 3, 4] 2).1,
   (skip_delivers_suffix [1, 2, 3, 4] 4).2.1 (by decide),
   (skip_delivers_suffix [1, 2, 3, 4] (-3)).2.2 (by decide)⟩

/-- C4: on two slice sources, `Zip` driven by a consumer that always continues
delivers the list-zip of the two slices: the pairs `(as[i], bs[i])` for `i`
below the shorter length, in increasing `i`, and nothing else.  The loop needs
one round per pair and one more to see the exhaustion. -/
theorem zip_delivers_list_zip (as : List T1) (bs : List T2) (rounds : Nat)
    (h : min as.length bs.length < rounds) :
    Zip rounds (sliceValues as) (sliceValues bs) collect2 [] = some (as.zip bs) ∧
    (as.zip bs).length = min as.length bs.length := by
  refine ⟨?_, List.length_zip as bs⟩
  have := zip_loop_slices as bs rounds 0 [] (Nat.zero_le _) (by omega)
  simp [Zip, this]

/-- C4 at the input of `TestZip`. -/
theorem zip_delivers_list_zip_witness :
    min [1, 2, 3, 4].length ["a", "b", "c"].length < 4 ∧
    Zip 4 (sliceValues [1, 2, 3, 4]) (sliceValues ["a", "b", "c"]) collect2 []
      = some [(1, "a"), (2, "b"), (3, "c")] :=
  ⟨by decide, (zip_delivers_list_zip [1, 2, 3, 4] ["a", "b", "c"] 4 (by decide)).1⟩

/-- C5 as stated fails: with `seqA = [1, 2]` and `seqB = [10, 20, 30]` the first
cursor reports exhaustion in the third round, and the second cursor has still
been asked in that round: `seqB` has handed over three elements, not two. -/
theorem zip_asks_second_after_first_exhausted :
    Zip.loop (sliceValues [1, 2]) (sliceValues [10, 20, 30]) collect2 3 ⟨0, false⟩ ⟨0, false⟩ []
      = some (⟨2, true⟩, ⟨3, false⟩, [(1, 10), (2, 20)]) ∧
    (Zip.loop (sliceValues [1, 2]) (sliceValues [10, 20, 30]) collect2 3
        ⟨0, false⟩ ⟨0, false⟩ []).map (fun r => r.2.1.pos) ≠ some 2 := by
  decide

/-- C5 amended: `Zip` ends in the round in which a cursor reports exhaustion,
and in every round both cursors are asked, the first before the second.  For
slice sources where `seqA` has `k` elements and `seqB` more than `k`, the loop
ends after `k + 1` rounds and `seqB` has handed over exactly `k + 1` elements;
where `seqB` has `k` elements and `seqA` at least `k`, `seqB` has handed over
exactly `k`. -/
theorem zip_ends_in_round_of_exhaustion :
    (∀ (it1 : Seq (Nat × Option T1) T1) (it2 : Seq (Nat × Option T2) T2)
        (yield : Step2 σ T1 T2) (rounds : Nat) (c1 c2 : Cursor) (s : σ),
      ((c1.next it1).1 = none ∨ (c2.next it2).1 = none) →
      Zip.loop it1 it2 yield (rounds + 1) c1 c2 s
        = some ((c1.next it1).2, (c2.next it2).2, s)) ∧
    (∀ (as : List T1) (bs : List T2), as.length < bs.length →
      Zip.loop (sliceValues as) (sliceValues bs) collect2 (as.length + 1)
          ⟨0, false⟩ ⟨0, false⟩ []
        = some (⟨as.length, true⟩, ⟨as.length + 1, false⟩, as.zip bs)) ∧
    (∀ (as : List T1) (bs : List T2), bs.length ≤ as.length →
      (Zip.loop (sliceValues as) (sliceValues bs) collect2 (bs.length + 1)
          ⟨0, false⟩ ⟨0, false⟩ []).map (fun r => r.2.1)
        = some ⟨bs.length, true⟩) := by
  refine ⟨?_, ?_, ?_⟩
  · intro it1 it2 yield rounds c1 c2 s h
    exact zip_loop_exhausted it1 it2 yield rounds c1 c2 s h
  · intro as bs h
    rw [zip_loop_slices as bs (as.length + 1) 0 [] (Nat.zero_le _) (by omega)]
    have e1 : min as.length (bs.length + 1) = as.length := by omega
    have e2 : min bs.length (as.length + 1) = as.length + 1 := by omega
    have d1 : decide (as.length ≤ bs.length) = true := by
      simp only [decide_eq_true_eq]; omega
    have d2 : decide (bs.length ≤ as.length) = false := by
      simp only [decide_eq_false_iff_not]; omega
    rw [e1, e2, d1, d2]
    simp
  · intro as bs h
    rw [zip_loop_slices as bs (bs.length + 1) 0 [] (Nat.zero_le _) (by omega)]
    have e2 : min bs.length (as.length + 1) = bs.length := by omega
    have d2 : decide (bs.length ≤ as.length) = true := by
      simp only [decide_eq_true_eq]; omega
    rw [e2, d2]
    simp

/-- C5 amended, at `seqA = [1, 2]` and `seqB = [10, 20, 30]`. -/
theorem zip_ends_in_round_of_exhaustion_witness :
    Zip.loop (sliceValues [1, 2]) (sliceValues [10, 20, 30]) collect2 ([1, 2].length + 1)
        ⟨0, false⟩ ⟨0, false⟩ []
      = some (⟨[1, 2].length, true⟩, ⟨[1, 2].length + 1, false⟩, [1, 2].zip [10, 20, 30]) :=
  (@zip_ends_in_round_of_exhaustion (List (Nat × Nat)) Nat Nat).2.1 [1, 2] [10, 20, 30] (by decide)

/-- C6: on a slice source, `Find` returns the first element satisfying `p`
with a nil error when there is one, and the zero value with a non-nil error
when there is none; so the error is non-nil exactly when no element satisfies
`p`. -/
theorem find_first_or_not_found [Inhabited T] (xs : List T) (p : T → Bool) :
    (∀ pre d post, xs = pre ++ d :: post → (∀ x ∈ pre, p x = false) → p d = true →
      (Find (sliceValues xs) (pureFn p) ()).1 = (d, none)) ∧
    ((∀ x ∈ xs, p x = false) →
      (Find (sliceValues xs) (pureFn p) ()).1 = (default, some "no element found")) ∧
    ((Find (sliceValues xs) (pureFn p) ()).1.2 ≠ none ↔ ∀ x ∈ xs, p x = false) := by
  refine ⟨?_, ?_, ?_⟩
  · intro pre d post hxs hpre hd
    have hf : xs.find? p = some d := by
      rw [List.find?_eq_some]
      exact ⟨hd, pre, post, hxs, fun a ha => by simp [hpre a ha]⟩
    rw [find_slice, hf]
  · intro hnone
    have hf : xs.find? p = none := by
      rw [List.find?_eq_none]
      intro x hx
      simp [hnone x hx]
    rw [find_slice, hf]
  · rw [find_slice]
    cases hf : xs.find? p with
    | none =>
      rw [List.find?_eq_none] at hf
      simp only [ne_eq, reduceCtorEq, not_false_eq_true, true_iff]
      intro x hx
      simpa using hf x hx
    | some v =>
      have hv := List.find?_some hf
      have hm := List.mem_of_find?_eq_some hf
      simp only [ne_eq, not_true_eq_false, false_iff]
      intro hall
      rw [hall v hm] at hv
      exact absurd hv (by simp)

/-- C6 at the inputs of `TestFind`: `2` is found in `[1, 2, 3]`, `5` is not. -/
theorem find_first_or_not_found_witness :
    (Find (sliceValues [1, 2, 3]) (pureFn (fun x => x == 2)) ()).1 = (2, none) ∧
    (Find (sliceValues [1, 2, 3]) (pureFn (fun x => x == 5)) ()).1
      = (0, some "no element found") :=
  ⟨(find_first_or_not_found [1, 2, 3] (fun x => x == 2)).1 [1] 2 [3] rfl (by decide) (by decide),
   (find_first_or_not_found [1, 2, 3] (fun x => x == 5)).2.1 (by decide)⟩

/-- C7: short-circuit.  On an observed slice source, when the first deciding
element (for `All` the first one failing `p`, for `Any` and `Find` the first one
satisfying `p`) is at position `i`, the source hands over exactly `i + 1`
elements and `p` is evaluated exactly `i + 1` times; the results are false,
true, and the element at position `i` with a nil error. -/
theorem short_circuit_at_deciding_element [Inhabited T] (xs : List T) (p : T → Bool) (i : Nat) :
    (xs.findIdx? (fun x => !p x) = some i →
      All (observed (under produced) (sliceValues xs)) (tested p) (0, 0)
        = (false, (i + 1, i + 1))) ∧
    (xs.findIdx? p = some i →
      Any (observed (under produced) (sliceValues xs)) (tested p) (0, 0)
        = (true, (i + 1, i + 1))) ∧
    (xs.findIdx? p = some i →
      ∃ v, xs[i]? = some v ∧
        Find (observed (under produced) (sliceValues xs)) (tested p) (0, 0)
          = ((v, none), (i + 1, i + 1))) := by
  refine ⟨?_, ?_, ?_⟩
  · intro h
    simpa using all_short_from xs p 0 0 i h
  · intro h
    simpa using any_short_from xs p 0 0 i h
  · intro h
    simpa using find_short_from xs p 0 0 i h

/-- C7 at the slice `[2, 4, 5, 6, 7]`: the first odd element is at position 2,
so three elements are handed over and three tests are made. -/
theorem short_circuit_at_deciding_element_witness :
    All (observed (under produced) (sliceValues [2, 4, 5, 6, 7]))
        (tested (fun v => v % 2 == 0)) (0, 0) = (false, (3, 3)) ∧
    Any (observed (under produced) (sliceValues [2, 4, 5, 6, 7]))
        (tested (fun v => v % 2 == 1)) (0, 0) = (true, (3, 3)) ∧
    ∃ v, [2, 4, 5, 6, 7][2]? = some v ∧
      Find (observed (under produced) (sliceValues [2, 4, 5, 6, 7]))
        (tested (fun v => v % 2 == 1)) (0, 0) = ((v, none), (3, 3)) :=
  ⟨(short_circuit_at_deciding_element [2, 4, 5, 6, 7] (fun v => v % 2 == 0) 2).1 (by decide),
   (short_circuit_at_deciding_element [2, 4, 5, 6, 7] (fun v => v % 2 == 1) 2).2.1 (by decide),
   (short_circuit_at_deciding_element [2, 4, 5, 6, 7] (fun v => v % 2 == 1) 2).2.2 (by decide)⟩

/-- C8: driving `Filter(source, p)` over a slice source with a consumer that
always continues delivers the list-filter of the slice by `p`: the elements
satisfying `p`, with multiplicity, in their original order, and no other. -/
theorem filter_delivers_filter (xs : List T) (p : T → Bool) :
    toList (Filter (sliceValues xs) (pureFn p)) = xs.filter p ∧
    ∀ x ∈ toList (Filter (sliceValues xs) (pureFn p)), p x = true := by
  have key : toList (Filter (sliceValues xs) (pureFn p)) = xs.filter p := by
    have := filter_collect_from xs p []
    simpa [toList, Filter] using this
  refine ⟨key, ?_⟩
  intro x hx
  rw [key] at hx
  exact (List.mem_filter.mp hx).2

/-- C9: driving `Reverse(source)` over a slice source with a consumer that
always continues delivers the elements of the slice in reverse order, as many
as the slice has. -/
theorem reverse_delivers_reverse (xs : List T) :
    toList (Reverse (sliceValues xs)) = xs.reverse ∧
    (toList (Reverse (sliceValues xs))).length = xs.length := by
  have key : toList (Reverse (sliceValues xs)) = xs.reverse := by
    rw [reverse_sliceValues, toList_sliceValues]
  exact ⟨key, by rw [key, List.length_reverse]⟩

/-- C10: `Reverse` is an involution on finite sequences: driving
`Reverse(Reverse(source))` over a slice source delivers exactly the slice, in
the original order. -/
theorem reverse_reverse_delivers_source (xs : List T) :
    toList (Reverse (Reverse (sliceValues xs))) = xs := by
  rw [reverse_sliceValues, reverse_sliceValues, toList_sliceValues, List.reverse_reverse]

/-- C11: Take/Skip complementarity.  For a slice source and every integer `n`,
in particular for `0 <= n <= L`, the elements delivered by `Take(s, n)` followed
by those delivered by `Skip(s, n)` are exactly the elements of the source, in
order; for `0 <= n <= L` the split is at position `n`. -/
theorem take_then_skip_reproduces (xs : List T) (n : Int) :
    toList (Take (sliceValues xs) n) ++ toList (Skip (sliceValues xs) n) = xs ∧
    (0 ≤ n → n ≤ (xs.length : Int) →
      (toList (Take (sliceValues xs) n)).length = n.toNat ∧
      (toList (Skip (sliceValues xs) n)).length = xs.length - n.toNat) := by
  have ht : toList (Take (sliceValues xs) n) = xs.take n.toNat := by
    rw [take_sliceValues, toList_sliceValues]
  have hs : toList (Skip (sliceValues xs) n) = xs.drop n.toNat := by
    rw [skip_sliceValues, toList_sliceValues]
  rw [ht, hs]
  refine ⟨List.take_append_drop _ _, ?_⟩
  intro h0 hL
  rw [List.length_take, List.length_drop]
  exact ⟨by omega, rfl⟩

/-- C11 at the slice of `TestTake` and `TestSkip` with `n = 2`. -/
theorem take_then_skip_reproduces_witness :
    toList (Take (sliceValues [1, 2, 3, 4]) 2) ++ toList (Skip (sliceValues [1, 2, 3, 4]) 2)
      = [1, 2, 3, 4] ∧
    (toList (Take (sliceValues [1, 2, 3, 4]) 2)).length = (2 : Int).toNat ∧
    (toList (Skip (sliceValues [1, 2, 3, 4]) 2)).length = [1, 2, 3, 4].length - (2 : Int).toNat :=
  ⟨(take_then_skip_reproduces [1, 2, 3, 4] 2).1,
   (take_then_skip_reproduces [1, 2, 3, 4] 2).2 (by decide) (by decide)⟩

/-- C12: Zip length.  For two slice sources, `Zip` driven by the callback of
`Count2` returns, and `Count2(Zip(a, b))` equals `min(Count(a), Count(b))`. -/
theorem zip_count_is_min (as : List T1) (bs : List T2) (rounds : Nat)
    (h : min as.length bs.length < rounds) :
    (Zip rounds (sliceValues as) (sliceValues bs)
        (fun _ _ (st : Int × Unit) => (true, (st.1 + 1, st.2))) (0, ())).isSome = true ∧
    (Count2 (ZipSeq rounds (sliceValues as) (sliceValues bs)) ()).1
      = min (Count (sliceValues as) ()).1 (Count (sliceValues bs) ()).1 := by
  refine ⟨?_, ?_⟩
  · rw [zip_sliceValues as bs rounds h]
    rfl
  · rw [zipSeq_sliceValues as bs rounds h, count2_mapsAll, count_slice, count_slice,
      List.length_zip]
    simp only
    omega

/-- C12 at the input of `TestZip`. -/
theorem zip_count_is_min_witness :
    (Count2 (ZipSeq 4 (sliceValues [1, 2, 3, 4]) (sliceValues ["a", "b", "c"])) ()).1
      = min (Count (sliceValues [1, 2, 3, 4]) ()).1 (Count (sliceValues ["a", "b", "c"]) ()).1 :=
  (zip_count_is_min [1, 2, 3, 4] ["a", "b", "c"] 4 (by decide)).2

/-- C13: on a slice source, `All` returns true exactly when every element
satisfies `p`; on the empty source it returns true. -/
theorem all_iff_every_element (xs : List T) (p : T → Bool) :
    ((All (sliceValues xs) (pureFn p) ()).1 = true ↔ ∀ x ∈ xs, p x = true) ∧
    (All (sliceValues ([] : List T)) (pureFn p) ()).1 = true := by
  refine ⟨?_, ?_⟩
  · rw [all_slice]
    exact List.all_eq_true
  · rw [all_slice]
    rfl

/-- C14: on a slice source, `Any` returns true exactly when at least one
element satisfies `p`; on the empty source it returns false. -/
theorem any_iff_some_element (xs : List T) (p : T → Bool) :
    ((Any (sliceValues xs) (pureFn p) ()).1 = true ↔ ∃ x ∈ xs, p x = true) ∧
    (Any (sliceValues ([] : List T)) (pureFn p) ()).1 = false := by
  refine ⟨?_, ?_⟩
  · rw [any_slice]
    simp [List.any_eq_true]
  · rw [any_slice]
    rfl

/-- C15: on a slice source `[x1, ..., xk]`, `Reduce(source, f, init)` is the
left fold `f(...f(f(init, x1), x2)..., xk)` for every combiner `f`, and it is
`init` on the empty source. -/
theorem reduce_is_left_fold (xs : List T) (f : A → T → A) (init : A) :
    (Reduce (sliceValues xs) (pureFn2 f) init ()).1 = xs.foldl f init ∧
    (Reduce (sliceValues ([] : List T)) (pureFn2 f) init ()).1 = init := by
  refine ⟨?_, ?_⟩
  · rw [reduce_slice]
  · rw [reduce_slice]
    rfl

/-- C16: on a slice source, `Map(source, f)` delivers `[f(x) for x in xs]`, in
order and one output per input; on a paired source producing `(k_i, v_i)`,
`Map2(source, f)` delivers `[f(k_i, v_i)]` in the same order. -/
theorem map_delivers_images (xs : List T) (f : T → R) (ps : List (K × V)) (g : K → V → R) :
    toList (Map (sliceValues xs) (pureFn f)) = xs.map f ∧
    (toList (Map (sliceValues xs) (pureFn f))).length = xs.length ∧
    toList (Map2 (mapsAll ps) (pureFn2 g)) = ps.map (fun kv => g kv.1 kv.2) := by
  have key : toList (Map (sliceValues xs) (pureFn f)) = xs.map f := by
    rw [map_sliceValues, toList_sliceValues]
  refine ⟨key, by rw [key, List.length_map], ?_⟩
  rw [map2_mapsAll, toList_sliceValues]

/-- C17: every transformer over slice sources honours the stop contract
towards its consumer.  Against a consumer that logs each invocation and answers
"stop" on its `k`-th one (`k >= 1`), the log of `Filter`, `Map`, `Skip`, `Take`,
`Reverse` and `Zip` is the first `k` elements of what the transformer delivers
to a consumer that never stops: no invocation follows the stop, no element is
skipped, and the consumer is invoked `k` times when that many elements exist. -/
theorem transformers_honour_stop (xs : List T) (bs : List T2) (p : T → Bool) (f : T → R)
    (n : Int) (rounds k : Nat) (hk : 1 ≤ k) (hr : min xs.length bs.length < rounds) :
    Filter (sliceValues xs) (pureFn p) (collectUntil k) []
      = (toList (Filter (sliceValues xs) (pureFn p))).take k ∧
    Map (sliceValues xs) (pureFn f) (collectUntil k) []
      = (toList (Map (sliceValues xs) (pureFn f))).take k ∧
    Skip (sliceValues xs) n (collectUntil k) []
      = (toList (Skip (sliceValues xs) n)).take k ∧
    Take (sliceValues xs) n (collectUntil k) []
      = (toList (Take (sliceValues xs) n)).take k ∧
    Reverse (sliceValues xs) (collectUntil k) []
      = (toList (Reverse (sliceValues xs))).take k ∧
    Zip rounds (sliceValues xs) (sliceValues bs) (collect2Until k) []
      = (Zip rounds (sliceValues xs) (sliceValues bs) collect2 []).map (List.take k) := by
  have e : max 1 (k - ([] : List T).length) = k := by
    simp only [List.length_nil]; omega
  have e2 : max 1 (k - ([] : List R).length) = k := by
    simp only [List.length_nil]; omega
  have e3 : max 1 (k - ([] : List (T × T2)).length) = k := by
    simp only [List.length_nil]; omega
  refine ⟨?_, ?_, ?_, ?_, ?_, ?_⟩
  · rw [filter_sliceValues, toList_sliceValues, sliceValues_collectUntil, e,
      List.nil_append]
  · rw [map_sliceValues, toList_sliceValues, sliceValues_collectUntil, e2,
      List.nil_append]
  · rw [skip_sliceValues, toList_sliceValues, sliceValues_collectUntil, e,
      List.nil_append]
  · rw [take_sliceValues, toList_sliceValues, sliceValues_collectUntil, e,
      List.nil_append]
  · rw [reverse_sliceValues, toList_sliceValues, sliceValues_collectUntil, e,
      List.nil_append]
  · rw [zip_sliceValues xs bs rounds hr, zip_sliceValues xs bs rounds hr, mapsAll_collect2Until,
      mapsAll_collect2, e3]
    simp

/-- C17 at the slices of `TestZip`, with a consumer that stops at its second
invocation. -/
theorem transformers_honour_stop_witness :
    Filter (sliceValues [1, 2, 3, 4]) (pureFn (fun v => v % 2 == 0)) (collectUntil 2) []
      = (toList (Filter (sliceValues [1, 2, 3, 4]) (pureFn (fun v => v % 2 == 0)))).take 2 ∧
    Take (sliceValues [1, 2, 3, 4]) 3 (collectUntil 2) []
      = (toList (Take (sliceValues [1, 2, 3, 4]) 3)).take 2 ∧
    Zip 4 (sliceValues [1, 2, 3, 4]) (sliceValues ["a", "b", "c"]) (collect2Until 2) []
      = (Zip 4 (sliceValues [1, 2, 3, 4]) (sliceValues ["a", "b", "c"]) collect2 []).map
          (List.take 2) :=
  ⟨(transformers_honour_stop [1, 2, 3, 4] ["a", "b", "c"] (fun v => v % 2 == 0)
      (fun v => v + 1) 3 4 2 (by decide) (by decide)).1,
   (transformers_honour_stop [1, 2, 3, 4] ["a", "b", "c"] (fun v => v % 2 == 0)
      (fun v => v + 1) 3 4 2 (by decide) (by decide)).2.2.2.1,
   (transformers_honour_stop [1, 2, 3, 4] ["a", "b", "c"] (fun v => v % 2 == 0)
      (fun v => v + 1) 3 4 2 (by decide) (by decide)).2.2.2.2.2⟩

/-- C18: `Reverse` buffers the entire source before producing anything.  With
the hand-overs of the source and the invocations of the consumer logged in one
log, driving `Reverse` over a slice source of `L` elements logs `L` hand-overs
first and only then the invocations of the consumer: `L` of them when the
consumer always continues, one when it stops at its first invocation. -/
theorem reverse_buffers_whole_source (xs : List T) (go : Bool) :
    Reverse (observed (under (noted Event.handedOver)) (sliceValues xs)) (receiving go) []
      = List.replicate xs.length Event.handedOver
        ++ List.replicate (if go then xs.length else min 1 xs.length) Event.received := by
  have hb := reverse_buffer_observed xs [] []
  simp only [List.nil_append] at hb
  simp only [Reverse, observed]
  rw [reverse_emit]
  simp only [hb, List.take_length, sliceValues_receiving, List.length_reverse]

/-- C19: exact source consumption of `Take` and `Take2`.  Driven by a consumer
that always continues over a source of `L` elements, `Take(source, n)` makes
the source hand over exactly `min(L, max(n,0) + 1)` elements, and so does
`Take2` over a paired source. -/
theorem take_consumes_one_more (xs : List T) (ps : List (K × V)) (n : Int) :
    (Take (observed (under produced) (sliceValues xs)) n (downstream collect) (0, [])).1
      = min xs.length ((max n 0).toNat + 1) ∧
    (Take2 (observed2 (under produced) (mapsAll ps)) n (downstream2 collect2) (0, [])).1
      = min ps.length ((max n 0).toNat + 1) := by
  have e : (n - 0).toNat = (max n 0).toNat := by omega
  refine ⟨?_, ?_⟩
  · have h := take_observed_exact xs n 0 0 []
    rw [e, Nat.zero_add] at h
    exact h
  · have h := take2_observed_exact ps n 0 0 []
    rw [e, Nat.zero_add] at h
    exact h

/-- C20: bounded consumption by `Zip`.  Over slice sources of lengths `la` and
`lb` and a consumer that always continues, the loop ends within
`min(la, lb) + 1` rounds with source `a` having handed over `min(la, lb + 1)`
elements and source `b` `min(lb, la + 1)`, neither more than one beyond the
number of pairs delivered; when the consumer stops at the `k`-th pair both
sources have handed over exactly `k` elements. -/
theorem zip_consumption (as : List T1) (bs : List T2) :
    (Zip.loop (sliceValues as) (sliceValues bs) collect2 (min as.length bs.length + 1)
        ⟨0, false⟩ ⟨0, false⟩ []).map (fun r => (r.1.pos, r.2.1.pos, r.2.2))
      = some (min as.length (bs.length + 1), min bs.length (as.length + 1), as.zip bs) ∧
    min as.length (bs.length + 1) ≤ (as.zip bs).length + 1 ∧
    min bs.length (as.length + 1) ≤ (as.zip bs).length + 1 ∧
    (∀ k, 1 ≤ k → k ≤ min as.length bs.length →
      Zip.loop (sliceValues as) (sliceValues bs) (collect2Until k) k ⟨0, false⟩ ⟨0, false⟩ []
        = some (⟨k, false⟩, ⟨k, false⟩, (as.zip bs).take k)) := by
  refine ⟨?_, ?_, ?_, ?_⟩
  · rw [zip_loop_slices as bs _ 0 [] (Nat.zero_le _) (by omega)]
    simp
  · rw [List.length_zip]; omega
  · rw [List.length_zip]; omega
  · intro k h1 hk
    have := zip_loop_stopped as bs k k 0 (by omega) hk (by omega)
    simpa using this

/-- C20 at the slices of `TestZip`, with a consumer that stops at the second
pair. -/
theorem zip_consumption_witness :
    Zip.loop (sliceValues [1, 2, 3, 4]) (sliceValues ["a", "b", "c"]) (collect2Until 2) 2
        ⟨0, false⟩ ⟨0, false⟩ []
      = some (⟨2, false⟩, ⟨2, false⟩, ([1, 2, 3, 4].zip ["a", "b", "c"]).take 2) :=
  (zip_consumption [1, 2, 3, 4] ["a", "b", "c"]).2.2.2 2 (by decide) (by decide)

end Lazyiterate
